import Mathlib

set_option maxHeartbeats 1000000

/-! Shallow embedding of the Markdown-to-notebook cell splitter
(`split_content_to_cells`) and of the driver's title-injection step from
`notebook.py`, together with the notions needed to state and verify the
specified properties.

Strings are modelled as `List Char`.  The Python primitives the script
uses — `str.splitlines`, `str.strip`, `"\n".join`, `str.replace`,
`str.title`, `os.path.splitext` — are modelled below; `strip`, `title`
and `splitext` are modelled on the ASCII fragment the script actually
manipulates (Python additionally strips/treats some non-ASCII Unicode
characters, which none of the verified properties touch). -/

/-- The backtick character (U+0060). -/
def btick : Char := Char.ofNat 96

/-- Three backticks: the code-fence marker checked by
`line.strip().startswith`. -/
def ticks : List Char := [btick, btick, btick]

/-- Line-break characters recognised by Python's `str.splitlines`. -/
def isBreak (c : Char) : Bool :=
  c = '\n' || c = '\r' || c = Char.ofNat 0x0b || c = Char.ofNat 0x0c ||
  c = Char.ofNat 0x1c || c = Char.ofNat 0x1d || c = Char.ofNat 0x1e ||
  c = Char.ofNat 0x85 || c = Char.ofNat 0x2028 || c = Char.ofNat 0x2029

/-- Whitespace removed by Python's `str.strip()` (ASCII fragment). -/
def pyIsSpace (c : Char) : Bool :=
  c = ' ' || c = '\t' || c = '\n' || c = '\r' ||
  c = Char.ofNat 0x0b || c = Char.ofNat 0x0c

/-- Python `str.strip()`: drop leading and trailing whitespace. -/
def pyStrip (l : List Char) : List Char :=
  ((l.dropWhile pyIsSpace).reverse.dropWhile pyIsSpace).reverse

/-- Prepend a character to the first of a list of lines (starting a fresh
line when there is none). -/
def headCons (c : Char) : List (List Char) → List (List Char)
  | [] => [[c]]
  | l :: ls => (c :: l) :: ls

/-- Python `str.splitlines()`: split at line breaks, treating `\r\n` as a
single break and not reporting a final empty line after a trailing
break.  `splitlines [] = []`; a trailing break does not open a new
line. -/
def splitlines : List Char → List (List Char)
  | [] => []
  | [c] => if isBreak c then [[]] else [[c]]
  | c :: d :: rest =>
    if c = '\r' && d = '\n' then [] :: splitlines rest
    else if isBreak c then [] :: splitlines (d :: rest)
    else headCons c (splitlines (d :: rest))

/-- Python `"\n".join`. -/
def joinL : List (List Char) → List Char
  | [] => []
  | [l] => l
  | l :: l' :: ls => l ++ '\n' :: joinL (l' :: ls)

/-- Split at `'\n'` only, keeping empty parts on both sides (the exact
inverse of `joinL` on non-empty lists of newline-free lines); used to
state the reconstruction property. -/
def splitNl : List Char → List (List Char)
  | [] => [[]]
  | c :: r => if c = '\n' then [] :: splitNl r else headCons c (splitNl r)

/-- One cell of the produced notebook: `nbf.v4.new_markdown_cell`,
`nbf.v4.new_code_cell(...)` without metadata, and
`nbf.v4.new_code_cell(..., metadata={"kernelspec": {"name": ...}})`. -/
inductive Cell where
  | markdown (source : List Char)
  | codePlain (source : List Char)
  | codeKernel (source : List Char) (kernelName : List Char)

deriving instance DecidableEq for Cell

/-- Fence detection: `line.strip().startswith` on three backticks. -/
def isFence (l : List Char) : Bool := decide ((pyStrip l).take 3 = ticks)

/-- Language tag recorded at an opening fence: `line.strip()[3:]`. -/
def tagOf (l : List Char) : List Char := (pyStrip l).drop 3

/-- The cell emitted at a closing fence: a plain code cell when
`current_code_type == "python"`, otherwise a code cell whose kernelspec
name is the literal string `"bash"` (as in the source). -/
def emitCodeCell (current_code_type source : List Char) : Cell :=
  if current_code_type = "python".toList then Cell.codePlain source
  else Cell.codeKernel source "bash".toList

/-- The loop body of `split_content_to_cells`: one pass over the lines,
carrying `in_code_block`, the two accumulators and `current_code_type`;
after the scan a non-empty markdown accumulator is flushed and a pending
code accumulator is dropped. -/
def splitLoop :
    List (List Char) → Bool → List (List Char) → List (List Char) →
      List Char → List Cell
  | [], _, _, markdown_block, _ =>
    if markdown_block = [] then [] else [Cell.markdown (joinL markdown_block)]
  | line :: rest, in_code_block, code_block, markdown_block, current_code_type =>
    if isFence line then
      if in_code_block then
        emitCodeCell current_code_type (joinL code_block) ::
          splitLoop rest false [] markdown_block current_code_type
      else
        (if markdown_block = [] then []
         else [Cell.markdown (joinL markdown_block)]) ++
          splitLoop rest true code_block [] (tagOf line)
    else if in_code_block then
      splitLoop rest true (code_block ++ [line]) markdown_block current_code_type
    else
      splitLoop rest false code_block (markdown_block ++ [line]) current_code_type

/-- The splitter applied to an already-split list of lines. -/
def processLines (lines : List (List Char)) : List Cell :=
  splitLoop lines false [] [] "python".toList

/-- Function `split_content_to_cells(md_content)` from `notebook.py`. -/
def split_content_to_cells (md_content : String) : List Cell :=
  processLines (splitlines md_content.toList)

/-- Field `'source'` of a produced cell. -/
def cellSource : Cell → List Char
  | Cell.markdown s => s
  | Cell.codePlain s => s
  | Cell.codeKernel s _ => s

/-- Python `str.replace('_', ' ')`. -/
def pyReplaceUnderscore (l : List Char) : List Char :=
  l.map (fun c => if c = '_' then ' ' else c)

/-- The scan behind Python's `str.title()` (ASCII letters): a letter
that follows a non-letter is uppercased, any other letter is lowercased;
the Boolean remembers whether the previous character was a letter. -/
def pyTitleGo : Bool → List Char → List Char
  | _, [] => []
  | prevAlpha, c :: r =>
    if c.isAlpha then
      (if prevAlpha then c.toLower else c.toUpper) :: pyTitleGo true r
    else c :: pyTitleGo false r

/-- Python `str.title()` (ASCII letters). -/
def pyTitle (l : List Char) : List Char := pyTitleGo false l

/-- Index of the last `'.'` of a list of characters, when there is one. -/
def lastDotPos : List Char → Option Nat
  | [] => none
  | c :: r =>
    match lastDotPos r with
    | some i => some (i + 1)
    | none => if c = '.' then some 0 else none

/-- Stem `os.path.splitext(name)[0]` for a plain (separator-free) file name:
cut at the last dot, unless every character before that dot is itself a
dot (so `".md"` or `"..."` keep their "extension"). -/
def splitextStem (l : List Char) : List Char :=
  match lastDotPos l with
  | none => l
  | some i => if (l.take i).all (fun c => c = '.') then l else l.take i

/-- The dynamic title cell the driver builds:
`f"# {os.path.splitext(md_file)[0].replace('_', ' ').title()}"`. -/
def titleCell (md_file : String) : Cell :=
  Cell.markdown
    ("# ".toList ++ pyTitle (pyReplaceUnderscore (splitextStem md_file.toList)))

/-- The driver's title-injection step: it reads `nb.cells[0]['source']`
(so `none` models the `IndexError` raised on an empty cell list) and
prepends the dynamic title cell unless that source starts with
`"# "`. -/
def inject_title (md_file : String) (cells : List Cell) : Option (List Cell) :=
  match cells with
  | [] => none
  | c0 :: _ =>
    if (cellSource c0).take 2 = "# ".toList then some cells
    else some (titleCell md_file :: cells)

/-- The lines a cell contributes when the output is rebuilt with generic
fence lines, following the spec's reconstruction recipe: a code cell is
wrapped in bare fence lines, a markdown cell contributes its lines. -/
def cellLines : Cell → List (List Char)
  | Cell.markdown t => splitNl t
  | Cell.codePlain t => ticks :: (splitNl t ++ [ticks])
  | Cell.codeKernel t _ => ticks :: (splitNl t ++ [ticks])

/-- Modelled from the spec's reconstruction recipe (§3/§8): join the
blocks' stored texts in order, reinserting fence lines at
markdown/code boundaries; stated at the level of line lists. -/
def reconLinesSpec : List Cell → List (List Char)
  | [] => []
  | c :: cs => cellLines c ++ reconLinesSpec cs

/-- The lines of one properly fenced code region followed by its
trailing markdown region: opening fence carrying `seg.1` as tag, the
code lines `seg.2.1`, a bare closing fence, then the markdown lines
`seg.2.2`. -/
def segLines (seg : List Char × List (List Char) × List (List Char)) :
    List (List Char) :=
  (ticks ++ seg.1) :: (seg.2.1 ++ [ticks] ++ seg.2.2)

/-- The line list of a sequence of fenced segments. -/
def flatSegs : List (List Char × List (List Char) × List (List Char)) →
    List (List Char)
  | [] => []
  | seg :: segs => segLines seg ++ flatSegs segs

/-- The line list of a document: leading markdown lines `md0`, then the
properly fenced segments. -/
def renderD (md0 : List (List Char))
    (segs : List (List Char × List (List Char) × List (List Char))) :
    List (List Char) :=
  md0 ++ flatSegs segs

/-- As `flatSegs`, but with every opening-fence tag erased (the fences
are reinserted generically). -/
def flatSegsErased :
    List (List Char × List (List Char) × List (List Char)) →
      List (List Char)
  | [] => []
  | seg :: segs =>
    ticks :: (seg.2.1 ++ [ticks] ++ seg.2.2 ++ flatSegsErased segs)

/-- Well-formedness of one fenced segment: the opening fence line is
already stripped (so its recorded tag is exactly `seg.1`), and neither
the code lines nor the trailing markdown lines look like fences. -/
def goodSeg (seg : List Char × List (List Char) × List (List Char)) : Prop :=
  pyStrip (ticks ++ seg.1) = ticks ++ seg.1 ∧
    (∀ l ∈ seg.2.1, isFence l = false) ∧ (∀ l ∈ seg.2.2, isFence l = false)

/-- Decidable check that a list of characters contains three consecutive
backticks somewhere. -/
def containsTicks : List Char → Bool
  | [] => false
  | c :: r => if (c :: r).take 3 = ticks then true else containsTicks r

/-- Whether a cell is a markdown cell. -/
def isMdCell : Cell → Bool
  | Cell.markdown _ => true
  | _ => false

/-- Whether the first cell of a list is a markdown cell. -/
def headIsMd : List Cell → Bool
  | [] => false
  | c :: _ => isMdCell c

/-- No two adjacent cells of the list are both markdown cells. -/
def noAdjMd : List Cell → Bool
  | [] => true
  | [_] => true
  | a :: b :: t => (!(isMdCell a && isMdCell b)) && noAdjMd (b :: t)

example :
    split_content_to_cells
        "# Title\nSome text.\n```python\nprint(1)\n```\nMore text.\n```bash\necho hi\n```" =
      [Cell.markdown "# Title\nSome text.".toList,
       Cell.codePlain "print(1)".toList,
       Cell.markdown "More text.".toList,
       Cell.codeKernel "echo hi".toList "bash".toList] := by decide

example : split_content_to_cells "" = [] := by decide

example :
    split_content_to_cells "a\n```ruby\nx\n```" =
      [Cell.markdown ['a'], Cell.codeKernel ['x'] "bash".toList] := by decide

theorem splitLoop_nil (b : Bool) (cb mb : List (List Char)) (tag : List Char) :
    splitLoop [] b cb mb tag =
      if mb = [] then [] else [Cell.markdown (joinL mb)] := rfl

theorem splitLoop_fence_code (l : List Char) (rest : List (List Char))
    (cb mb : List (List Char)) (tag : List Char) (h : isFence l = true) :
    splitLoop (l :: rest) true cb mb tag =
      emitCodeCell tag (joinL cb) :: splitLoop rest false [] mb tag := by
  simp [splitLoop, h]

theorem splitLoop_fence_md (l : List Char) (rest : List (List Char))
    (cb mb : List (List Char)) (tag : List Char) (h : isFence l = true) :
    splitLoop (l :: rest) false cb mb tag =
      (if mb = [] then [] else [Cell.markdown (joinL mb)]) ++
        splitLoop rest true cb [] (tagOf l) := by
  simp [splitLoop, h]

theorem splitLoop_line_code (l : List Char) (rest : List (List Char))
    (cb mb : List (List Char)) (tag : List Char) (h : isFence l = false) :
    splitLoop (l :: rest) true cb mb tag =
      splitLoop rest true (cb ++ [l]) mb tag := by
  simp [splitLoop, h]

theorem splitLoop_line_md (l : List Char) (rest : List (List Char))
    (cb mb : List (List Char)) (tag : List Char) (h : isFence l = false) :
    splitLoop (l :: rest) false cb mb tag =
      splitLoop rest false cb (mb ++ [l]) tag := by
  simp [splitLoop, h]

theorem splitLoop_absorb_md (ls : List (List Char))
    (h : ∀ l ∈ ls, isFence l = false) :
    ∀ (rest : List (List Char)) (cb mb : List (List Char)) (tag : List Char),
      splitLoop (ls ++ rest) false cb mb tag =
        splitLoop rest false cb (mb ++ ls) tag := by
  induction ls with
  | nil => intro rest cb mb tag; simp
  | cons l t ih =>
    intro rest cb mb tag
    have hl : isFence l = false := h l (by simp)
    have ht : ∀ x ∈ t, isFence x = false := fun x hx => h x (by simp [hx])
    rw [List.cons_append, splitLoop_line_md _ _ _ _ _ hl, ih ht]
    simp

theorem splitLoop_absorb_code (ls : List (List Char))
    (h : ∀ l ∈ ls, isFence l = false) :
    ∀ (rest : List (List Char)) (cb mb : List (List Char)) (tag : List Char),
      splitLoop (ls ++ rest) true cb mb tag =
        splitLoop rest true (cb ++ ls) mb tag := by
  induction ls with
  | nil => intro rest cb mb tag; simp
  | cons l t ih =>
    intro rest cb mb tag
    have hl : isFence l = false := h l (by simp)
    have ht : ∀ x ∈ t, isFence x = false := fun x hx => h x (by simp [hx])
    rw [List.cons_append, splitLoop_line_code _ _ _ _ _ hl, ih ht]
    simp

theorem splitLoop_code_dropped (ls : List (List Char))
    (h : ∀ l ∈ ls, isFence l = false) (cb : List (List Char)) (tag : List Char) :
    splitLoop ls true cb [] tag = [] := by
  have := splitLoop_absorb_code ls h [] cb [] tag
  rw [List.append_nil] at this
  rw [this, splitLoop_nil]
  simp

theorem headCons_ne_nil (c : Char) (L : List (List Char)) : headCons c L ≠ [] := by
  cases L <;> simp [headCons]

theorem headCons_cases (c : Char) (L : List (List Char)) (l : List Char)
    (hl : l ∈ headCons c L) :
    (L = [] ∧ l = [c]) ∨ ∃ x t, L = x :: t ∧ (l = c :: x ∨ l ∈ t) := by
  cases L with
  | nil =>
    simp [headCons] at hl
    exact Or.inl ⟨rfl, hl⟩
  | cons x t =>
    simp [headCons] at hl
    exact Or.inr ⟨x, t, rfl, hl⟩

theorem splitlines_ne_nil (s : List Char) (hs : s ≠ []) : splitlines s ≠ [] := by
  cases s with
  | nil => exact absurd rfl hs
  | cons c r =>
    cases r with
    | nil =>
      simp only [splitlines]
      split <;> simp
    | cons d rest =>
      simp only [splitlines]
      split
      · simp
      · split
        · simp
        · exact headCons_ne_nil _ _

theorem splitlines_no_newline (s : List Char) :
    ∀ l ∈ splitlines s, '\n' ∉ l := by
  induction s using splitlines.induct with
  | case1 => simp [splitlines]
  | case2 c h => simp [splitlines, h]
  | case3 c h =>
    intro l hl
    simp [splitlines, h] at hl
    subst hl
    intro hmem
    rcases List.mem_singleton.mp hmem with rfl
    exact h (by decide)
  | case4 c d rest h ih =>
    intro l hl
    have e : splitlines (c :: d :: rest) = [] :: splitlines rest := by
      simp [splitlines, h]
    rw [e] at hl
    rcases List.mem_cons.mp hl with rfl | hl
    · simp
    · exact ih l hl
  | case5 c d rest h1 h2 ih =>
    intro l hl
    have e : splitlines (c :: d :: rest) = [] :: splitlines (d :: rest) := by
      simp [splitlines, h1, h2]
    rw [e] at hl
    rcases List.mem_cons.mp hl with rfl | hl
    · simp
    · exact ih l hl
  | case6 c d rest h1 h2 ih =>
    intro l hl
    have e : splitlines (c :: d :: rest) = headCons c (splitlines (d :: rest)) := by
      simp [splitlines, h1, h2]
    rw [e] at hl
    have hc : c ≠ '\n' := by
      intro hc
      exact h2 (by subst hc; decide)
    rcases headCons_cases c _ l hl with ⟨_, rfl⟩ | ⟨x, t, hL, hx⟩
    · intro hmem
      rcases List.mem_singleton.mp hmem with rfl
      exact hc rfl
    · rcases hx with rfl | hx
      · intro hmem
        rcases List.mem_cons.mp hmem with h' | h'
        · exact hc h'.symm
        · exact ih x (by rw [hL]; simp) h'
      · exact ih l (by rw [hL]; simp [hx])

theorem splitlines_head_decomp (s : List Char) :
    ∀ l ls, splitlines s = l :: ls → ∃ post, s = l ++ post := by
  induction s using splitlines.induct with
  | case1 => intro l ls h; simp [splitlines] at h
  | case2 c h =>
    intro l ls he
    simp [splitlines, h] at he
    exact ⟨[c], by simp [he.1]⟩
  | case3 c h =>
    intro l ls he
    simp [splitlines, h] at he
    exact ⟨[], by simp [he.1]⟩
  | case4 c d rest h ih =>
    intro l ls he
    have e : splitlines (c :: d :: rest) = [] :: splitlines rest := by
      simp [splitlines, h]
    rw [e] at he
    exact ⟨c :: d :: rest, by simp [(List.cons_eq_cons.mp he).1.symm]⟩
  | case5 c d rest h1 h2 ih =>
    intro l ls he
    have e : splitlines (c :: d :: rest) = [] :: splitlines (d :: rest) := by
      simp [splitlines, h1, h2]
    rw [e] at he
    exact ⟨c :: d :: rest, by simp [(List.cons_eq_cons.mp he).1.symm]⟩
  | case6 c d rest h1 h2 ih =>
    intro l ls he
    have e : splitlines (c :: d :: rest) = headCons c (splitlines (d :: rest)) := by
      simp [splitlines, h1, h2]
    rw [e] at he
    cases hL : splitlines (d :: rest) with
    | nil => exact absurd hL (splitlines_ne_nil _ (by simp))
    | cons x t =>
      rw [hL] at he
      simp [headCons] at he
      obtain ⟨post, hpost⟩ := ih x t hL
      exact ⟨post, by rw [← he.1]; simp [hpost]⟩

theorem splitlines_mem_decomp (s : List Char) :
    ∀ l ∈ splitlines s, ∃ pre post, s = pre ++ l ++ post := by
  induction s using splitlines.induct with
  | case1 => simp [splitlines]
  | case2 c h =>
    intro l hl
    simp [splitlines, h] at hl
    exact ⟨[], [c], by simp [hl]⟩
  | case3 c h =>
    intro l hl
    simp [splitlines, h] at hl
    exact ⟨[], [], by simp [hl]⟩
  | case4 c d rest h ih =>
    intro l hl
    have e : splitlines (c :: d :: rest) = [] :: splitlines rest := by
      simp [splitlines, h]
    rw [e] at hl
    rcases List.mem_cons.mp hl with rfl | hl
    · exact ⟨[], c :: d :: rest, by simp⟩
    · obtain ⟨pre, post, hd⟩ := ih l hl
      exact ⟨c :: d :: pre, post, by simp [hd]⟩
  | case5 c d rest h1 h2 ih =>
    intro l hl
    have e : splitlines (c :: d :: rest) = [] :: splitlines (d :: rest) := by
      simp [splitlines, h1, h2]
    rw [e] at hl
    rcases List.mem_cons.mp hl with rfl | hl
    · exact ⟨[], c :: d :: rest, by simp⟩
    · obtain ⟨pre, post, hd⟩ := ih l hl
      exact ⟨c :: pre, post, by simp [hd]⟩
  | case6 c d rest h1 h2 ih =>
    intro l hl
    have e : splitlines (c :: d :: rest) = headCons c (splitlines (d :: rest)) := by
      simp [splitlines, h1, h2]
    rw [e] at hl
    rcases headCons_cases c _ l hl with ⟨_, rfl⟩ | ⟨x, t, hL, hx⟩
    · exact ⟨[], d :: rest, by simp⟩
    · rcases hx with rfl | hx
      · obtain ⟨post, hpost⟩ := splitlines_head_decomp (d :: rest) x t hL
        exact ⟨[], post, by simp [hpost]⟩
      · obtain ⟨pre, post, hd⟩ := ih l (by rw [hL]; simp [hx])
        exact ⟨c :: pre, post, by simp [hd]⟩

theorem joinL_headCons (c : Char) (L : List (List Char)) (hL : L ≠ []) :
    joinL (headCons c L) = c :: joinL L := by
  cases L with
  | nil => exact absurd rfl hL
  | cons x t =>
    cases t with
    | nil => simp [headCons, joinL]
    | cons y ys => simp [headCons, joinL]

theorem joinL_splitlines (s : List Char)
    (h : ∀ c ∈ s, c = '\n' ∨ isBreak c = false) :
    joinL (splitlines s) = s ∨ joinL (splitlines s) ++ ['\n'] = s := by
  induction s using splitlines.induct with
  | case1 => exact Or.inl rfl
  | case2 c hb =>
    have hc : c = '\n' := by
      rcases h c (by simp) with hc | hc
      · exact hc
      · rw [hc] at hb; exact absurd hb (by simp)
    subst hc
    simp [splitlines, joinL]
  | case3 c hb =>
    simp [splitlines, hb, joinL]
  | case4 c d rest hb ih =>
    exfalso
    have hc : c = '\r' := by
      have := congrArg (fun b => b = true) hb
      simp at hb
      exact hb.1
    rcases h c (by simp) with h' | h' <;> rw [hc] at h'
    · exact absurd h' (by decide)
    · exact absurd h' (by decide)
  | case5 c d rest h1 h2 ih =>
    have hc : c = '\n' := by
      rcases h c (by simp) with hc | hc
      · exact hc
      · rw [hc] at h2; exact absurd h2 (by simp)
    subst hc
    have e : splitlines ('\n' :: d :: rest) = [] :: splitlines (d :: rest) := by
      simp [splitlines, h1, h2]
    rw [e]
    have hL : splitlines (d :: rest) ≠ [] := splitlines_ne_nil _ (by simp)
    have hIH := ih (fun x hx => h x (by simp [hx]))
    cases hLc : splitlines (d :: rest) with
    | nil => exact absurd hLc hL
    | cons x t =>
      rw [hLc] at hIH
      have ej : joinL ([] :: x :: t) = '\n' :: joinL (x :: t) := by simp [joinL]
      rw [ej]
      rcases hIH with hIH | hIH
      · exact Or.inl (by rw [hIH])
      · refine Or.inr ?_
        rw [List.cons_append, hIH]
  | case6 c d rest h1 h2 ih =>
    have e : splitlines (c :: d :: rest) = headCons c (splitlines (d :: rest)) := by
      simp [splitlines, h1, h2]
    rw [e]
    have hL : splitlines (d :: rest) ≠ [] := splitlines_ne_nil _ (by simp)
    rw [joinL_headCons c _ hL]
    have hIH := ih (fun x hx => h x (by simp [hx]))
    rcases hIH with hIH | hIH
    · exact Or.inl (by rw [hIH])
    · refine Or.inr ?_
      rw [List.cons_append, hIH]

theorem processLines_md_only (ls : List (List Char))
    (h : ∀ l ∈ ls, isFence l = false) :
    processLines ls = if ls = [] then [] else [Cell.markdown (joinL ls)] := by
  have := splitLoop_absorb_md ls h [] [] [] "python".toList
  rw [List.append_nil] at this
  rw [processLines, this, splitLoop_nil]
  simp

theorem containsTicks_of_decomp (u v : List Char) :
    containsTicks (u ++ ticks ++ v) = true := by
  induction u with
  | nil => simp [containsTicks, ticks]
  | cons c u ih =>
    rw [List.cons_append, List.cons_append, containsTicks]
    rw [← List.cons_append, ← List.cons_append]
    split
    · rfl
    · rw [List.cons_append, List.cons_append] at *
      simpa using ih

theorem decomp_of_containsTicks (m : List Char) (h : containsTicks m = true) :
    ∃ u v, m = u ++ ticks ++ v := by
  induction m with
  | nil => simp [containsTicks] at h
  | cons c r ih =>
    rw [containsTicks] at h
    split at h
    · refine ⟨[], (c :: r).drop 3, ?_⟩
      rw [List.nil_append, ← ‹(c :: r).take 3 = ticks›, List.take_append_drop]
    · obtain ⟨u, v, huv⟩ := ih h
      exact ⟨c :: u, v, by simp [huv]⟩

theorem containsTicks_part (u l pre post : List Char)
    (h : containsTicks u = false) (hdec : u = pre ++ l ++ post) :
    containsTicks l = false := by
  cases hcl : containsTicks l
  · rfl
  · exfalso
    obtain ⟨a, b, hab⟩ := decomp_of_containsTicks l hcl
    have hu : u = (pre ++ a) ++ ticks ++ (b ++ post) := by
      rw [hdec, hab]; simp
    rw [hu, containsTicks_of_decomp] at h
    exact Bool.noConfusion h

theorem pyStrip_decomp (l : List Char) : ∃ a b, l = a ++ pyStrip l ++ b := by
  have h1 : l = l.takeWhile pyIsSpace ++ l.dropWhile pyIsSpace :=
    (List.takeWhile_append_dropWhile (p := pyIsSpace) (l := l)).symm
  have h2 : (l.dropWhile pyIsSpace).reverse =
      (l.dropWhile pyIsSpace).reverse.takeWhile pyIsSpace ++
        (l.dropWhile pyIsSpace).reverse.dropWhile pyIsSpace :=
    (List.takeWhile_append_dropWhile (p := pyIsSpace)
      (l := (l.dropWhile pyIsSpace).reverse)).symm
  have h3 : l.dropWhile pyIsSpace =
      pyStrip l ++ ((l.dropWhile pyIsSpace).reverse.takeWhile pyIsSpace).reverse := by
    rw [pyStrip, ← List.reverse_append, ← h2, List.reverse_reverse]
  exact ⟨l.takeWhile pyIsSpace,
    ((l.dropWhile pyIsSpace).reverse.takeWhile pyIsSpace).reverse, by
      rw [List.append_assoc, ← h3, ← h1]⟩

theorem isFence_eq_false_of_noTicks (l : List Char)
    (h : containsTicks l = false) : isFence l = false := by
  cases hf : isFence l
  · rfl
  · exfalso
    have hf' : (pyStrip l).take 3 = ticks := by
      have := of_decide_eq_true hf
      exact this
    have hs : pyStrip l = ticks ++ (pyStrip l).drop 3 := by
      rw [← hf', List.take_append_drop]
    obtain ⟨a, b, hab⟩ := pyStrip_decomp l
    have hdec : l = a ++ ticks ++ ((pyStrip l).drop 3 ++ b) := by
      conv_lhs => rw [hab, hs]
      simp
    rw [hdec, containsTicks_of_decomp] at h
    exact Bool.noConfusion h

theorem lines_not_fence (u : List Char) (h : containsTicks u = false) :
    ∀ l ∈ splitlines u, isFence l = false := by
  intro l hl
  obtain ⟨pre, post, hdec⟩ := splitlines_mem_decomp u l hl
  exact isFence_eq_false_of_noTicks l (containsTicks_part u l pre post h hdec)

theorem noAdjMd_cons (c : Cell) (cs : List Cell) :
    noAdjMd (c :: cs) = ((!(isMdCell c && headIsMd cs)) && noAdjMd cs) := by
  cases cs with
  | nil => simp [noAdjMd, headIsMd]
  | cons b t => rfl

theorem emitCodeCell_not_md (tag src : List Char) :
    isMdCell (emitCodeCell tag src) = false := by
  rw [emitCodeCell]
  split <;> rfl

theorem splitLoop_noAdj (ls : List (List Char)) :
    (∀ cb tag, noAdjMd (splitLoop ls true cb [] tag) = true ∧
      headIsMd (splitLoop ls true cb [] tag) = false) ∧
    (∀ mb tag, noAdjMd (splitLoop ls false [] mb tag) = true) := by
  induction ls with
  | nil =>
    constructor
    · intro cb tag
      rw [splitLoop_nil]
      simp [noAdjMd, headIsMd]
    · intro mb tag
      rw [splitLoop_nil]
      split <;> simp [noAdjMd]
  | cons l rest ih =>
    cases hf : isFence l with
    | false =>
      constructor
      · intro cb tag
        rw [splitLoop_line_code _ _ _ _ _ hf]
        exact ih.1 (cb ++ [l]) tag
      · intro mb tag
        rw [splitLoop_line_md _ _ _ _ _ hf]
        exact ih.2 (mb ++ [l]) tag
    | true =>
      constructor
      · intro cb tag
        rw [splitLoop_fence_code _ _ _ _ _ hf]
        constructor
        · rw [noAdjMd_cons, emitCodeCell_not_md]
          simpa using ih.2 [] tag
        · simp [headIsMd, emitCodeCell_not_md]
      · intro mb tag
        rw [splitLoop_fence_md _ _ _ _ _ hf]
        obtain ⟨hno, hhd⟩ := ih.1 [] (tagOf l)
        split
        · simpa using hno
        · rw [List.singleton_append, noAdjMd_cons, hno, hhd]
          simp

/-- C4: the splitter applied to the empty string produces an empty block
sequence (zero cells). -/
theorem C4_empty_input_empty_output : split_content_to_cells "" = [] := by
  decide

/-- C3 counterexample: the empty string contains no triple-backtick
sequence, yet the splitter returns zero blocks, not exactly one
`MarkdownBlock`. -/
theorem C3_cx_empty_input :
    containsTicks "".toList = false ∧ split_content_to_cells "" = [] ∧
      (split_content_to_cells "").length ≠ 1 := by
  decide

/-- C3 (amended): for every NON-empty input text containing no
triple-backtick sequence, the output is exactly one markdown cell — and
no code cell — whose text is the newline-join of the input's lines;
when the input uses only `'\n'` as a line break, that text is the input
itself up to removal of one trailing newline. -/
theorem C3_no_fence_single_markdown (s : String) (hne : s ≠ "")
    (h : containsTicks s.toList = false) :
    split_content_to_cells s = [Cell.markdown (joinL (splitlines s.toList))] ∧
      ((∀ c ∈ s.toList, c = '\n' ∨ isBreak c = false) →
        joinL (splitlines s.toList) = s.toList ∨
          joinL (splitlines s.toList) ++ ['\n'] = s.toList) := by
  constructor
  · rw [split_content_to_cells, processLines_md_only _ (lines_not_fence _ h)]
    have hld : s.toList ≠ [] := by
      intro he
      apply hne
      cases s with
      | mk data =>
        simp [String.toList] at he
        subst he
        rfl
    have hlines : splitlines s.toList ≠ [] := splitlines_ne_nil _ hld
    rw [if_neg hlines]
  · intro hnl
    exact joinL_splitlines s.toList hnl

theorem C3_no_fence_single_markdown_witness :
    ("hello\nworld" ≠ "" ∧ containsTicks "hello\nworld".toList = false) ∧
      (split_content_to_cells "hello\nworld" =
          [Cell.markdown (joinL (splitlines "hello\nworld".toList))] ∧
        ((∀ c ∈ "hello\nworld".toList, c = '\n' ∨ isBreak c = false) →
          joinL (splitlines "hello\nworld".toList) = "hello\nworld".toList ∨
            joinL (splitlines "hello\nworld".toList) ++ ['\n'] =
              "hello\nworld".toList)) :=
  ⟨⟨by decide, by decide⟩,
    C3_no_fence_single_markdown "hello\nworld" (by decide) (by decide)⟩

/-- C1 counterexample: for the region opened by a fence tagged `ruby`,
the emitted cell's execution-kernel metadata is the hard-coded string
`"bash"`, not the region's language tag `"ruby"`. -/
theorem C1_cx_kernel_is_bash_not_tag :
    split_content_to_cells "```ruby\nx\n```" =
        [Cell.codeKernel ['x'] "bash".toList] ∧
      "ruby".toList ≠ "bash".toList := by
  decide

/-- C1 (amended): a code region whose opening fence tag is exactly
`"python"` becomes a plain code cell; a region with any other tag
(including the empty tag) becomes a code cell whose kernel metadata
carries the hard-coded name `"bash"` — not the region's own tag. -/
theorem C1_python_plain_else_bash (s : String) (tag : List Char)
    (cls : List (List Char))
    (hsp : splitlines s.toList = (ticks ++ tag) :: (cls ++ [ticks]))
    (htag : pyStrip (ticks ++ tag) = ticks ++ tag)
    (hcls : ∀ l ∈ cls, isFence l = false) :
    split_content_to_cells s =
      [if tag = "python".toList then Cell.codePlain (joinL cls)
       else Cell.codeKernel (joinL cls) "bash".toList] := by
  have hft : isFence (ticks ++ tag) = true := by
    simp only [isFence, htag]
    simp [ticks]
  have htagOf : tagOf (ticks ++ tag) = tag := by
    simp only [tagOf, htag]
    simp [ticks]
  have hfc : isFence ticks = true := by decide
  rw [split_content_to_cells, hsp, processLines,
    splitLoop_fence_md _ _ _ _ _ hft]
  rw [if_pos rfl, htagOf, List.nil_append,
    splitLoop_absorb_code cls hcls [ticks] [] [] tag,
    splitLoop_fence_code _ _ _ _ _ hfc, splitLoop_nil]
  rw [if_pos rfl, List.nil_append, emitCodeCell]

theorem C1_python_plain_else_bash_witness :
    (splitlines "```ruby\nx\n```".toList =
        (ticks ++ "ruby".toList) :: ([['x']] ++ [ticks]) ∧
      pyStrip (ticks ++ "ruby".toList) = ticks ++ "ruby".toList ∧
      (∀ l ∈ [['x']], isFence l = false)) ∧
      split_content_to_cells "```ruby\nx\n```" =
        [if "ruby".toList = "python".toList then Cell.codePlain (joinL [['x']])
         else Cell.codeKernel (joinL [['x']]) "bash".toList] :=
  ⟨⟨by decide, by decide, by decide⟩,
    C1_python_plain_else_bash "```ruby\nx\n```" "ruby".toList [['x']]
      (by decide) (by decide) (by decide)⟩

/-- C2 counterexample: an opening fence immediately followed by a
closing fence does emit a block — a code cell with empty text — because
only the markdown accumulator is guarded against empty flushes. -/
theorem C2_cx_empty_region_emits_cell :
    split_content_to_cells "```\n```" = [Cell.codeKernel [] "bash".toList] ∧
      split_content_to_cells "```\n```" ≠ [] := by
  decide

/-- C2 (amended): two adjacent fence lines produce a code cell with
empty text for the empty region (the empty CODE accumulator is
flushed); the empty markdown accumulator preceding the opening fence is
not flushed, so that single code cell is the whole output. -/
theorem C2_adjacent_fences_empty_code_cell (s : String) (tag : List Char)
    (hsp : splitlines s.toList = [ticks ++ tag, ticks])
    (htag : pyStrip (ticks ++ tag) = ticks ++ tag) :
    split_content_to_cells s =
      [if tag = "python".toList then Cell.codePlain []
       else Cell.codeKernel [] "bash".toList] := by
  have hft : isFence (ticks ++ tag) = true := by
    simp only [isFence, htag]
    simp [ticks]
  have htagOf : tagOf (ticks ++ tag) = tag := by
    simp only [tagOf, htag]
    simp [ticks]
  have hfc : isFence ticks = true := by decide
  rw [split_content_to_cells, hsp, processLines,
    splitLoop_fence_md _ _ _ _ _ hft]
  rw [if_pos rfl, htagOf, List.nil_append,
    splitLoop_fence_code _ _ _ _ _ hfc, splitLoop_nil]
  rw [if_pos rfl, emitCodeCell]
  rfl

theorem C2_adjacent_fences_empty_code_cell_witness :
    (splitlines "```\n```".toList = [ticks ++ ([] : List Char), ticks] ∧
      pyStrip (ticks ++ ([] : List Char)) = ticks ++ ([] : List Char)) ∧
      split_content_to_cells "```\n```" =
        [if ([] : List Char) = "python".toList then Cell.codePlain []
         else Cell.codeKernel [] "bash".toList] :=
  ⟨⟨by decide, by decide⟩,
    C2_adjacent_fences_empty_code_cell "```\n```" [] (by decide) (by decide)⟩

/-- C10: in every output of the splitter no two markdown cells are
adjacent: a markdown accumulator is only flushed at an opening fence or
at end of input, and every closing fence emits a code cell first. -/
theorem C10_no_adjacent_markdown (s : String) :
    noAdjMd (split_content_to_cells s) = true := by
  rw [split_content_to_cells, processLines]
  exact (splitLoop_noAdj (splitlines s.toList)).2 [] "python".toList

theorem isFence_of_stripped_tag (tag : List Char)
    (htag : pyStrip (ticks ++ tag) = ticks ++ tag) :
    isFence (ticks ++ tag) = true := by
  simp only [isFence, htag]
  simp [ticks]

theorem tagOf_stripped_tag (tag : List Char)
    (htag : pyStrip (ticks ++ tag) = ticks ++ tag) :
    tagOf (ticks ++ tag) = tag := by
  simp only [tagOf, htag]
  simp [ticks]

theorem splitLoop_seg (tag1 : List Char) (cls mls : List (List Char))
    (rest mb : List (List Char)) (tag : List Char)
    (htag : pyStrip (ticks ++ tag1) = ticks ++ tag1)
    (hcls : ∀ l ∈ cls, isFence l = false)
    (hmls : ∀ l ∈ mls, isFence l = false) :
    splitLoop (segLines (tag1, cls, mls) ++ rest) false [] mb tag =
      (if mb = [] then [] else [Cell.markdown (joinL mb)]) ++
        emitCodeCell tag1 (joinL cls) :: splitLoop rest false [] mls tag1 := by
  have hfc : isFence ticks = true := by decide
  rw [segLines, List.cons_append,
    splitLoop_fence_md _ _ _ _ _ (isFence_of_stripped_tag tag1 htag),
    tagOf_stripped_tag tag1 htag]
  have e1 : (cls ++ [ticks] ++ mls) ++ rest = cls ++ (ticks :: (mls ++ rest)) := by
    simp
  rw [e1, splitLoop_absorb_code cls hcls, List.nil_append,
    splitLoop_fence_code _ _ _ _ _ hfc,
    splitLoop_absorb_md mls hmls, List.nil_append]

theorem splitLoop_drop_unterminated
    (tl : List Char) (htl : isFence tl = true)
    (cls : List (List Char)) (hcls : ∀ l ∈ cls, isFence l = false) :
    ∀ segs, (∀ seg ∈ segs, goodSeg seg) →
      ∀ (mb : List (List Char)) (tag : List Char),
        splitLoop (flatSegs segs ++ tl :: cls) false [] mb tag =
          splitLoop (flatSegs segs) false [] mb tag := by
  intro segs
  induction segs with
  | nil =>
    intro _ mb tag
    simp only [flatSegs, List.nil_append]
    rw [splitLoop_fence_md _ _ _ _ _ htl,
      splitLoop_code_dropped cls hcls, List.append_nil, splitLoop_nil]
  | cons seg segs ih =>
    intro hgood mb tag
    obtain ⟨t1, cls1, mls1⟩ := seg
    obtain ⟨htag1, hcls1, hmls1⟩ := hgood (t1, cls1, mls1) (by simp)
    have hsegs : ∀ x ∈ segs, goodSeg x := fun x hx => hgood x (by simp [hx])
    simp only [flatSegs]
    rw [List.append_assoc,
      splitLoop_seg t1 cls1 mls1 _ mb tag htag1 hcls1 hmls1,
      splitLoop_seg t1 cls1 mls1 _ mb tag htag1 hcls1 hmls1,
      ih hsegs mls1 t1]

/-- C5: an input consisting of (fence-free) markdown lines, an opening
fence and code lines but no closing fence produces the markdown content
as a single MarkdownBlock and silently drops the unterminated code
content (no block for it, no error); more generally, with any properly
fenced prefix, the output is exactly the output for that prefix alone. -/
theorem C5_unterminated_fence_drops_code (s : String)
    (md0 : List (List Char))
    (segs : List (List Char × List (List Char) × List (List Char)))
    (tl : List Char) (cls : List (List Char))
    (hsp : splitlines s.toList = renderD md0 segs ++ tl :: cls)
    (hmd0 : ∀ l ∈ md0, isFence l = false)
    (hsegs : ∀ seg ∈ segs, goodSeg seg)
    (htl : isFence tl = true)
    (hcls : ∀ l ∈ cls, isFence l = false) :
    split_content_to_cells s = processLines (renderD md0 segs) ∧
      (segs = [] →
        split_content_to_cells s =
          if md0 = [] then [] else [Cell.markdown (joinL md0)]) := by
  have hmain : split_content_to_cells s = processLines (renderD md0 segs) := by
    rw [split_content_to_cells, hsp, renderD, processLines, List.append_assoc,
      splitLoop_absorb_md md0 hmd0, List.nil_append,
      splitLoop_drop_unterminated tl htl cls hcls segs hsegs md0 "python".toList,
      ← List.nil_append md0, ← splitLoop_absorb_md md0 hmd0]
    rfl
  refine ⟨hmain, fun hnil => ?_⟩
  subst hnil
  rw [hmain, renderD, flatSegs, List.append_nil, processLines_md_only md0 hmd0]

theorem C5_unterminated_fence_drops_code_witness :
    (splitlines "before\n```python\ndropped".toList =
        renderD ["before".toList] [] ++ "```python".toList :: ["dropped".toList] ∧
      isFence "```python".toList = true) ∧
      (split_content_to_cells "before\n```python\ndropped" =
          processLines (renderD ["before".toList] []) ∧
        (([] : List (List Char × List (List Char) × List (List Char))) = [] →
          split_content_to_cells "before\n```python\ndropped" =
            if (["before".toList] : List (List Char)) = [] then []
            else [Cell.markdown (joinL ["before".toList])])) :=
  ⟨⟨by decide, by decide⟩,
    C5_unterminated_fence_drops_code "before\n```python\ndropped"
      ["before".toList] [] "```python".toList ["dropped".toList]
      (by decide) (by decide) (by simp) (by decide) (by decide)⟩

/-- C7: the emitted CodeBlock's tag is exactly `tagOf` of the
whitespace-trimmed opening fence line (everything after the three
backticks), and the closing fence line — fence-detected, with arbitrary
trailing text — does not appear in the result at all: neither in this
block's tag nor in the state the rest of the input is processed with. -/
theorem C7_closing_fence_tag_ignored (s : String)
    (md : List (List Char)) (opLine : List Char) (cls : List (List Char))
    (clLine : List Char) (rest : List (List Char))
    (hsp : splitlines s.toList = md ++ opLine :: (cls ++ clLine :: rest))
    (hmd : ∀ l ∈ md, isFence l = false)
    (hop : isFence opLine = true)
    (hcls : ∀ l ∈ cls, isFence l = false)
    (hcl : isFence clLine = true) :
    split_content_to_cells s =
      (if md = [] then [] else [Cell.markdown (joinL md)]) ++
        emitCodeCell (tagOf opLine) (joinL cls) ::
          splitLoop rest false [] [] (tagOf opLine) := by
  rw [split_content_to_cells, hsp, processLines,
    splitLoop_absorb_md md hmd, List.nil_append,
    splitLoop_fence_md _ _ _ _ _ hop,
    splitLoop_absorb_code cls hcls, List.nil_append,
    splitLoop_fence_code _ _ _ _ _ hcl]

theorem C7_closing_fence_tag_ignored_witness :
    (splitlines "a\n```py\nx\n``` junk\nb".toList =
        [['a']] ++ "```py".toList :: ([['x']] ++ "``` junk".toList :: [['b']]) ∧
      isFence "```py".toList = true ∧ isFence "``` junk".toList = true) ∧
      split_content_to_cells "a\n```py\nx\n``` junk\nb" =
        (if ([['a']] : List (List Char)) = [] then []
         else [Cell.markdown (joinL [['a']])]) ++
          emitCodeCell (tagOf "```py".toList) (joinL [['x']]) ::
            splitLoop [['b']] false [] [] (tagOf "```py".toList) :=
  ⟨⟨by decide, by decide, by decide⟩,
    C7_closing_fence_tag_ignored "a\n```py\nx\n``` junk\nb"
      [['a']] "```py".toList [['x']] "``` junk".toList [['b']]
      (by decide) (by decide) (by decide) (by decide) (by decide)⟩

/-- C6 counterexample: when the first emitted cell is a CODE cell whose
source begins with `"# "`, the driver does NOT prepend a title (it
checks `nb.cells[0]['source']` regardless of cell type), contrary to the
claim that a leading CodeBlock always receives a title. -/
theorem C6_cx_code_cell_suppresses_title :
    inject_title "x_y.md" (split_content_to_cells "```\n# hi\n```") =
      some [Cell.codeKernel "# hi".toList "bash".toList] := by
  decide

/-- C6 (amended): the title cell — `"# "` followed by the file stem with
underscores replaced by spaces and title-cased — is prepended if and
only if the FIRST CELL'S SOURCE does not start with `"# "`, regardless
of whether that first cell is a markdown or a code cell. -/
theorem C6_title_injected_iff_source_not_h1 (s : String) (md_file : String)
    (c0 : Cell) (rest : List Cell)
    (hsplit : split_content_to_cells s = c0 :: rest) :
    ((cellSource c0).take 2 = "# ".toList →
        inject_title md_file (split_content_to_cells s) =
          some (split_content_to_cells s)) ∧
      ((cellSource c0).take 2 ≠ "# ".toList →
        inject_title md_file (split_content_to_cells s) =
          some (Cell.markdown
              ("# ".toList ++
                pyTitle (pyReplaceUnderscore (splitextStem md_file.toList))) ::
            split_content_to_cells s)) := by
  constructor
  · intro h
    rw [hsplit]
    simp only [inject_title]
    rw [if_pos h]
  · intro h
    rw [hsplit]
    simp only [inject_title]
    rw [if_neg h]
    simp only [titleCell]

theorem C6_title_injected_iff_source_not_h1_witness :
    (split_content_to_cells "x" = Cell.markdown ['x'] :: []) ∧
      (((cellSource (Cell.markdown ['x'])).take 2 = "# ".toList →
          inject_title "t_f.md" (split_content_to_cells "x") =
            some (split_content_to_cells "x")) ∧
        ((cellSource (Cell.markdown ['x'])).take 2 ≠ "# ".toList →
          inject_title "t_f.md" (split_content_to_cells "x") =
            some (Cell.markdown
                ("# ".toList ++
                  pyTitle (pyReplaceUnderscore (splitextStem "t_f.md".toList))) ::
              split_content_to_cells "x"))) :=
  ⟨by decide,
    C6_title_injected_iff_source_not_h1 "x" "t_f.md" (Cell.markdown ['x']) []
      (by decide)⟩

/-- C9: whenever the splitter returns an empty cell sequence, the
driver's title-injection step — which indexes `nb.cells[0]` — fails (no
notebook is produced); modelled by `inject_title` returning `none` for
the `IndexError`. -/
theorem C9_empty_cells_title_injection_fails (s : String) (md_file : String)
    (h : split_content_to_cells s = []) :
    inject_title md_file (split_content_to_cells s) = none := by
  rw [h]
  rfl

theorem splitNl_no_newline (l : List Char) (h : '\n' ∉ l) :
    splitNl l = [l] := by
  induction l with
  | nil => rfl
  | cons c r ih =>
    have hc : ¬ c = '\n' := fun hc => h (by rw [hc]; exact List.mem_cons_self _ _)
    have hr : '\n' ∉ r := fun hr => h (List.mem_cons_of_mem _ hr)
    simp only [splitNl]
    rw [if_neg hc, ih hr]
    rfl

theorem splitNl_append_newline (l z : List Char) (h : '\n' ∉ l) :
    splitNl (l ++ '\n' :: z) = l :: splitNl z := by
  induction l with
  | nil =>
    simp [splitNl]
  | cons c r ih =>
    have hc : ¬ c = '\n' := fun hc => h (by rw [hc]; exact List.mem_cons_self _ _)
    have hr : '\n' ∉ r := fun hr => h (List.mem_cons_of_mem _ hr)
    simp only [List.cons_append, splitNl, List.append_eq]
    rw [if_neg hc, ih hr]
    rfl

theorem splitNl_joinL (ls : List (List Char)) (hne : ls ≠ [])
    (h : ∀ l ∈ ls, '\n' ∉ l) : splitNl (joinL ls) = ls := by
  induction ls with
  | nil => exact absurd rfl hne
  | cons x t ih =>
    cases t with
    | nil =>
      simp only [joinL]
      exact splitNl_no_newline x (h x (by simp))
    | cons y ys =>
      simp only [joinL]
      rw [splitNl_append_newline x _ (h x (by simp)),
        ih (by simp) (fun l hl => h l (by simp [hl]))]

theorem reconLinesSpec_append (a b : List Cell) :
    reconLinesSpec (a ++ b) = reconLinesSpec a ++ reconLinesSpec b := by
  induction a with
  | nil => rfl
  | cons c t ih =>
    simp only [List.cons_append, reconLinesSpec, List.append_eq]
    rw [ih, List.append_assoc]

theorem cellLines_emit (tag src : List Char) :
    cellLines (emitCodeCell tag src) = ticks :: (splitNl src ++ [ticks]) := by
  rw [emitCodeCell]
  split <;> rfl

theorem mem_flatSegs_code
    (segs : List (List Char × List (List Char) × List (List Char)))
    (seg : List Char × List (List Char) × List (List Char))
    (hseg : seg ∈ segs) (l : List Char) (hl : l ∈ seg.2.1) :
    l ∈ flatSegs segs := by
  induction segs with
  | nil => cases hseg
  | cons a t ih =>
    rcases List.mem_cons.mp hseg with rfl | hseg
    · show l ∈ segLines seg ++ flatSegs t
      refine List.mem_append_left _ ?_
      show l ∈ (ticks ++ seg.1) :: (seg.2.1 ++ [ticks] ++ seg.2.2)
      exact List.mem_cons_of_mem _
        (List.mem_append_left _ (List.mem_append_left _ hl))
    · show l ∈ segLines a ++ flatSegs t
      exact List.mem_append_right _ (ih hseg)

theorem mem_flatSegs_md
    (segs : List (List Char × List (List Char) × List (List Char)))
    (seg : List Char × List (List Char) × List (List Char))
    (hseg : seg ∈ segs) (l : List Char) (hl : l ∈ seg.2.2) :
    l ∈ flatSegs segs := by
  induction segs with
  | nil => cases hseg
  | cons a t ih =>
    rcases List.mem_cons.mp hseg with rfl | hseg
    · show l ∈ segLines seg ++ flatSegs t
      refine List.mem_append_left _ ?_
      show l ∈ (ticks ++ seg.1) :: (seg.2.1 ++ [ticks] ++ seg.2.2)
      exact List.mem_cons_of_mem _ (List.mem_append_right _ hl)
    · show l ∈ segLines a ++ flatSegs t
      exact List.mem_append_right _ (ih hseg)

theorem recon_main :
    ∀ segs : List (List Char × List (List Char) × List (List Char)),
      (∀ seg ∈ segs, goodSeg seg) →
      (∀ seg ∈ segs, seg.2.1 ≠ []) →
      (∀ seg ∈ segs, ∀ l ∈ seg.2.1, '\n' ∉ l) →
      (∀ seg ∈ segs, ∀ l ∈ seg.2.2, '\n' ∉ l) →
      ∀ (mb : List (List Char)) (tag : List Char),
        (∀ l ∈ mb, '\n' ∉ l) →
        reconLinesSpec (splitLoop (flatSegs segs) false [] mb tag) =
          mb ++ flatSegsErased segs := by
  intro segs
  induction segs with
  | nil =>
    intro _ _ _ _ mb tag hmb
    simp only [flatSegs, flatSegsErased, List.append_nil]
    rw [splitLoop_nil]
    by_cases hmb0 : mb = []
    · subst hmb0
      simp [reconLinesSpec]
    · rw [if_neg hmb0]
      simp only [reconLinesSpec, cellLines, List.append_nil]
      rw [splitNl_joinL mb hmb0 hmb]
  | cons seg segs ih =>
    intro hgood hne hnlc hnlm mb tag hmb
    obtain ⟨t1, cls1, mls1⟩ := seg
    obtain ⟨htag1, hcls1, hmls1⟩ := hgood (t1, cls1, mls1) (by simp)
    simp only [flatSegs, flatSegsErased]
    rw [splitLoop_seg t1 cls1 mls1 _ mb tag htag1 hcls1 hmls1,
      reconLinesSpec_append]
    have hrest :
        reconLinesSpec (emitCodeCell t1 (joinL cls1) ::
            splitLoop (flatSegs segs) false [] mls1 t1) =
          ticks :: (cls1 ++ [ticks] ++ (mls1 ++ flatSegsErased segs)) := by
      simp only [reconLinesSpec]
      rw [cellLines_emit,
        splitNl_joinL cls1 (hne (t1, cls1, mls1) (by simp))
          (hnlc (t1, cls1, mls1) (by simp)),
        ih (fun x hx => hgood x (by simp [hx]))
          (fun x hx => hne x (by simp [hx]))
          (fun x hx => hnlc x (by simp [hx]))
          (fun x hx => hnlm x (by simp [hx]))
          mls1 t1 (hnlm (t1, cls1, mls1) (by simp))]
      simp
    rw [hrest]
    by_cases hmb0 : mb = []
    · subst hmb0
      simp only [if_pos rfl, reconLinesSpec, List.nil_append]
      simp
    · rw [if_neg hmb0]
      simp only [reconLinesSpec, cellLines, List.append_nil]
      rw [splitNl_joinL mb hmb0 hmb]
      simp

/-- C8 counterexample: for the properly paired input `"a\n(fence)\n(fence)\nb"`
with an empty code region, rejoining the blocks' texts with fence lines
reinserted does not reproduce the input's line content (an empty line
appears that the input never had); moreover the input with an
empty-LINE code region produces the very same block sequence, so no
reconstruction procedure on the output could tell the two inputs
apart. -/
theorem C8_cx_empty_code_region :
    reconLinesSpec (split_content_to_cells "a\n```\n```\nb") ≠
        splitlines "a\n```\n```\nb".toList ∧
      split_content_to_cells "a\n```\n\n```\nb" =
        split_content_to_cells "a\n```\n```\nb" ∧
      splitlines "a\n```\n\n```\nb".toList ≠
        splitlines "a\n```\n```\nb".toList := by
  decide

/-- C8 (amended): for a properly paired input in which every code region
has at least one line, joining the blocks' stored texts in order and
reinserting generic fence lines around each code block reproduces the
input's line content exactly, except that each opening fence is
reproduced without its original language tag (every non-fence line is
preserved untrimmed). -/
theorem C8_reconstruction (s : String)
    (md0 : List (List Char))
    (segs : List (List Char × List (List Char) × List (List Char)))
    (hsp : splitlines s.toList = renderD md0 segs)
    (hmd0 : ∀ l ∈ md0, isFence l = false)
    (hsegs : ∀ seg ∈ segs, goodSeg seg)
    (hne : ∀ seg ∈ segs, seg.2.1 ≠ []) :
    reconLinesSpec (split_content_to_cells s) = md0 ++ flatSegsErased segs := by
  have hnl : ∀ l ∈ renderD md0 segs, '\n' ∉ l := by
    intro l hl
    exact splitlines_no_newline s.toList l (by rw [hsp]; exact hl)
  have hmd0nl : ∀ l ∈ md0, '\n' ∉ l := fun l hl =>
    hnl l (by simp only [renderD, List.mem_append]; exact Or.inl hl)
  have hclsnl : ∀ seg ∈ segs, ∀ l ∈ seg.2.1, '\n' ∉ l := fun seg hseg l hl =>
    hnl l (by
      simp only [renderD, List.mem_append]
      exact Or.inr (mem_flatSegs_code segs seg hseg l hl))
  have hmlsnl : ∀ seg ∈ segs, ∀ l ∈ seg.2.2, '\n' ∉ l := fun seg hseg l hl =>
    hnl l (by
      simp only [renderD, List.mem_append]
      exact Or.inr (mem_flatSegs_md segs seg hseg l hl))
  rw [split_content_to_cells, hsp, processLines, renderD,
    splitLoop_absorb_md md0 hmd0, List.nil_append,
    recon_main segs hsegs hne hclsnl hmlsnl md0 "python".toList hmd0nl]

theorem C8_reconstruction_witness :
    (splitlines "a\n```\nx\n```\nb".toList =
        renderD [['a']] [([], [['x']], [['b']])] ∧
      (∀ l ∈ ([['a']] : List (List Char)), isFence l = false) ∧
      goodSeg (([] : List Char), [['x']], [['b']]) ∧
      ([['x']] : List (List Char)) ≠ []) ∧
      reconLinesSpec (split_content_to_cells "a\n```\nx\n```\nb") =
        [['a']] ++ flatSegsErased [(([] : List Char), [['x']], [['b']])] :=
  ⟨⟨by decide, by decide, ⟨by decide, by decide, by decide⟩, by decide⟩,
    C8_reconstruction "a\n```\nx\n```\nb" [['a']] [([], [['x']], [['b']])]
      (by decide) (by decide)
      (by
        intro seg hseg
        rcases List.mem_singleton.mp hseg with rfl
        exact ⟨by decide, by decide, by decide⟩)
      (by
        intro seg hseg
        rcases List.mem_singleton.mp hseg with rfl
        decide)⟩

theorem C9_empty_cells_title_injection_fails_witness :
    (split_content_to_cells "" = [] ∧
      inject_title "a.md" (split_content_to_cells "") = none) ∧
      (split_content_to_cells "```python\nx" = [] ∧
        inject_title "b.md" (split_content_to_cells "```python\nx") = none) :=
  ⟨⟨by decide, C9_empty_cells_title_injection_fails "" "a.md" (by decide)⟩,
    ⟨by decide,
      C9_empty_cells_title_injection_fails "```python\nx" "b.md" (by decide)⟩⟩
